import Mathlib

/-!
Verification of the PRISM iteration controller (prism/_pipeline.py).

This file gives a shallow embedding, over rationals and lists, of the parts
of the pipeline that the verified properties refer to:

* the implausibility cut-off check (Pipeline._do_impl_check),
* the implausibility cut-off setter (Pipeline.impl_cut),
* the worker-mode context manager exit (WorkerMode.__exit__),
* the construction preconditions (Pipeline.construct),
* the reanalysis guard (Pipeline.analyze),
* the generic evaluation traversal (Pipeline._evaluate_sam_set),
* the model-discrepancy fallback (Pipeline._get_md_var),
* the single-plausible-sample handling in Pipeline.analyze.

Machine floats are modelled as exact rationals, NumPy arrays as lists, and
Python exceptions as Except values.
-/

namespace Prism

/-! ### Implausibility check (Pipeline._do_impl_check, lines 1697-1750)

A univariate implausibility matrix is a list of per-sample rows, one rational
per data point; all rows have the common length n_data.  The configured
cut-off vector of an iteration is the reduced vector stored by the impl_cut
setter, and cut_idx is the number of leading wildcards. -/

/-- Descending sort of one row, as np.flip applied to np.sort. -/
def descSort (l : List ℚ) : List ℚ := List.insertionSort (fun a b => b ≤ a) l

/-- Column k of the extracted implausibility matrix: per sample, the value at
descending rank cut_idx + k of that sample, as row cut_idx + k of the
transposed sorted matrix. -/
def extractedCol (rows : List (List ℚ)) (cut_idx k : ℕ) : List ℚ :=
  rows.map (fun r => (descSort r).getD (cut_idx + k) 0)

/-- The column-wise short-circuiting scan of _do_impl_check: each step takes
the next (column, cut-off) pair, keeps a sample plausible exactly when it was
plausible before and its column value stays within the cut-off, and the scan
breaks as soon as no sample is left plausible. -/
def implLoop : List (List ℚ × ℚ) → List Bool → List Bool
  | [], check => check
  | (col, cut) :: rest, check =>
      let next := (col.zip check).map (fun vb => vb.2 && decide (vb.1 ≤ cut))
      if next.all (fun b => !b) then next
      else implLoop rest next

/-- Embedding of Pipeline._do_impl_check: sort every row descending, slice
the transposed matrix from cut_idx on, record per sample the value at the
first real cut-off, and run the column-wise scan against the configured
cut-off vector, starting from all samples plausible. -/
def do_impl_check (cut_idx n_data : ℕ) (impl_cut : List ℚ) (rows : List (List ℚ)) :
    List Bool × List ℚ :=
  let cols := (List.range (n_data - cut_idx)).map (fun k => extractedCol rows cut_idx k)
  let impl_cut_vals := rows.map (fun r => (descSort r).getD cut_idx 0)
  (implLoop (cols.zip impl_cut) (rows.map (fun _ => true)), impl_cut_vals)

/-- The naive per-sample scan described by the specification: sort the row
descending, drop the leading cut_idx entries, and check every remaining value
against the cut-off at the same position, over all compared positions. -/
def naiveCheck (cut_idx : ℕ) (impl_cut : List ℚ) (row : List ℚ) : Bool :=
  (((descSort row).drop cut_idx).zip impl_cut).all (fun vc => decide (vc.1 ≤ vc.2))

/-- The naive per-sample recorded cut-off value: the value at the first real
cut-off position, whether the sample passes or fails. -/
def naiveCutVal (cut_idx : ℕ) (row : List ℚ) : ℚ := (descSort row).getD cut_idx 0

/-! ### Implausibility cut-off setter (Pipeline.impl_cut, lines 646-684)

The setter completes the user-provided cut-off list (a zero entry inherits
the previous completed value, and a value higher than a non-zero previous
completed value raises ValueError), finds the first non-zero entry among the
first n_data_tot completed entries, and stores the completed vector from that
index on, raising ValueError when only wildcards are found. -/

/-- Embedding of the completion loop of the impl_cut setter from index 1 on,
carrying the completed value of the previous position. -/
def completeAux : ℚ → List ℚ → Except String (List ℚ)
  | _, [] => Except.ok []
  | prev, x :: xs =>
      if x = 0 then (completeAux prev xs).map (fun ys => prev :: ys)
      else if prev < x ∧ prev ≠ 0 then
        Except.error "Cut-off is higher than the previous cut-off!"
      else (completeAux x xs).map (fun ys => x :: ys)

/-- Embedding of the completion loop of the impl_cut setter: the first entry
is kept unchanged and every later entry is completed against its
predecessor. -/
def completeImplCut : List ℚ → Except String (List ℚ)
  | [] => Except.ok []
  | x :: xs => (completeAux x xs).map (fun ys => x :: ys)

/-- Embedding of the impl_cut setter after validation: complete the cut-off
list, locate the first non-wildcard entry among the first n_data_tot
completed entries, and store the completed vector from that index on,
together with cut_idx. -/
def implCutSetter (n_data_tot : ℕ) (l : List ℚ) : Except String (List ℚ × ℕ) :=
  match completeImplCut l with
  | Except.error e => Except.error e
  | Except.ok comp =>
      match (comp.take n_data_tot).findIdx? (fun x => decide (x ≠ 0)) with
      | none => Except.error "No non-wildcard implausibility cut-off was provided!"
      | some cut_idx => Except.ok (comp.drop cut_idx, cut_idx)

/-- The completed cut-off values produced by the setter loop when it does
not raise, as a total function. -/
def completionFrom : ℚ → List ℚ → List ℚ
  | _, [] => []
  | prev, x :: xs =>
      if x = 0 then prev :: completionFrom prev xs else x :: completionFrom x xs

/-- The completed cut-off vector of an input list, as stored by the setter
when it does not raise. -/
def completion : List ℚ → List ℚ
  | [] => []
  | x :: xs => x :: completionFrom x xs

/-- A completed cut-off vector has an increase when some entry is strictly
greater than its predecessor while that predecessor is non-zero. -/
def hasIncrease : List ℚ → Bool
  | [] => false
  | [_] => false
  | a :: b :: t => (decide (a ≠ 0) && decide (a < b)) || hasIncrease (b :: t)

/-- The last non-zero value of a list, with a fallback carry value; helper
for relating the completion loop to the specification wording. -/
def lastNZ : ℚ → List ℚ → ℚ
  | prev, [] => prev
  | prev, x :: ys => lastNZ (if x = 0 then prev else x) ys

/-- The value of the nearest preceding non-zero entry before position k, or
zero when every preceding entry is zero.  This follows the wording of the
specification. -/
def nearestPrecedingNonzero (l : List ℚ) (k : ℕ) : ℚ :=
  ((l.take k).filter (fun x => decide (x ≠ 0))).getLast?.getD 0

/-- Completion as worded by the specification: every zero entry takes the
value of the nearest preceding non-zero entry, every non-zero entry is kept
unchanged. -/
def specCompletion (l : List ℚ) : List ℚ :=
  (List.range l.length).map (fun k =>
    if l.getD k 0 ≠ 0 then l.getD k 0 else nearestPrecedingNonzero l k)

/-! ### Generic evaluation traversal (Pipeline._evaluate_sam_set, lines 2182-2351)

The traversal is embedded for a single rank with the analyze hook bundle,
whose only non-empty snippet returns the still-plausible samples; the
composition of the emulator evaluation and the univariate implausibility
computation for one sample at one iteration is kept abstract as the function
argument evalUI. -/

/-- Indices of the still-plausible samples: the sam_idx array obtained by
filtering the full index range with the plausibility flags. -/
def trueIdxs (bs : List Bool) : List ℕ :=
  (List.range bs.length).filter (fun s => bs.getD s false)

/-- Write back the per-column check results at the still-plausible indices,
as the fancy-indexed assignment into impl_check. -/
def setAt (check : List Bool) (upds : List (ℕ × Bool)) : List Bool :=
  upds.foldl (fun c p => c.set p.1 p.2) check

/-- One emulator iteration of the traversal: evaluate the still-plausible
samples, compute their univariate implausibility rows, run the
implausibility check, and write the verdicts back into the flag array. -/
def evalIter (evalUI : ℕ → List ℚ → List ℚ) (impl_cut : ℕ → List ℚ)
    (cut_idx n_data : ℕ → ℕ) (sam_set : List (List ℚ)) (i : ℕ)
    (impl_check : List Bool) : List Bool :=
  let sam_idx := trueIdxs impl_check
  let eval_sam_set := sam_idx.map (fun s => sam_set.getD s [])
  let uni_impl_vals := eval_sam_set.map (fun par_set => evalUI i par_set)
  setAt impl_check
    (sam_idx.zip (do_impl_check (cut_idx i) (n_data i) (impl_cut i) uni_impl_vals).1)

/-- The iteration loop of the traversal over the listed emulator iterations,
stopping early as soon as no sample is left plausible. -/
def runIters (evalUI : ℕ → List ℚ → List ℚ) (impl_cut : ℕ → List ℚ)
    (cut_idx n_data : ℕ → ℕ) (sam_set : List (List ℚ)) :
    List ℕ → List Bool → List Bool
  | [], impl_check => impl_check
  | i :: rest, impl_check =>
      let next := evalIter evalUI impl_cut cut_idx n_data sam_set i impl_check
      if trueIdxs next = [] then next
      else runIters evalUI impl_cut cut_idx n_data sam_set rest next

/-- Embedding of Pipeline._evaluate_sam_set with the analyze hook bundle:
when the default emulator type is used, all samples start plausible and the
iteration loop runs over iterations 1 to emul_i, returning the surviving
samples; any other emulator type raises NotImplementedError. -/
def evaluateSamSet (emul_type : String) (emul_i : ℕ) (evalUI : ℕ → List ℚ → List ℚ)
    (impl_cut : ℕ → List ℚ) (cut_idx n_data : ℕ → ℕ) (sam_set : List (List ℚ)) :
    Except Unit (List (List ℚ)) :=
  if emul_type = "default" then
    Except.ok ((trueIdxs (runIters evalUI impl_cut cut_idx n_data sam_set
      (List.range' 1 emul_i) (sam_set.map (fun _ => true)))).map
        (fun s => sam_set.getD s []))
  else Except.error ()

/-! ### Reanalysis guard (Pipeline.analyze, lines 2385-2401)

The construction checkpoint of an iteration is modelled as the list of the
names of its pending sub-steps; the emulator checkpoint record is a list of
such checkpoints indexed by iteration. -/

/-- Embedding of the controller check at the start of Pipeline.analyze:
accessing the checkpoint of iteration emul_i + 1 raises IndexError when that
iteration does not exist (analysis allowed); otherwise analysis is refused
exactly when the substep mod_real_set is no longer pending there. -/
def analyzeCheck (ccheck : List (List String)) (emul_i : ℕ) : Except String Unit :=
  if emul_i + 1 < ccheck.length then
    if "mod_real_set" ∈ ccheck.getD (emul_i + 1) [] then Except.ok ()
    else Except.error "Construction of next emulator iteration has already been started."
  else Except.ok ()

/-! ### Construction preconditions (Pipeline.construct, lines 2684-2703) -/

/-- Embedding of the plausible-sample preconditions that Pipeline.construct
checks on the controller before building iteration emul_i from the start:
iteration 1 has no such precondition; for a later iteration, a RequestError is
raised when the previous iteration has no plausible samples, or fewer
plausible samples than the regression cross-validation count n_cross_val. -/
def constructStartCheck (emul_i n_impl_sam_prev n_cross_val : ℕ) : Except String Unit :=
  if emul_i = 1 then Except.ok ()
  else if n_impl_sam_prev = 0 then
    Except.error "No plausible regions were found in the analysis of the previous emulator iteration. Construction is not possible!"
  else if n_impl_sam_prev < n_cross_val then
    Except.error "Number of plausible samples found in the analysis of the previous iteration is lower than the number of cross validations used during regression. Construction is not possible!"
  else Except.ok ()

/-! ### Worker-mode exit (WorkerMode.__exit__, lines 3344-3363)

The collective operations the controller performs while leaving worker mode
are recorded as an event trace; the propagated exception is returned beside
the trace. -/

/-- Collective actions the controller can perform in WorkerMode.__exit__. -/
inductive WMEvent where
  | bcastKey
  | clearFlag
  | barrier
deriving DecidableEq, Repr

/-- Embedding of WorkerMode.__exit__ on the controller rank: if an exception
is active it is re-raised immediately, before anything else; otherwise the
disable key is broadcast and, when this is the outermost worker mode, the
worker-mode flag is cleared and a barrier is executed.  The first component
is the trace of collective events performed, the second the exception that
propagates out of the with-block. -/
def workerModeExit (was_active : Bool) (exc : Option String) :
    List WMEvent × Option String :=
  match exc with
  | some e => ([], some e)
  | none =>
      ([WMEvent.bcastKey] ++ (if was_active then [] else [WMEvent.clearFlag, WMEvent.barrier]),
       none)

/-! ### Model-discrepancy fallback (Pipeline._get_md_var, lines 1836-1875)

A data point is modelled by its value and the name of its value space. -/

/-- One entry of the fallback branch of Pipeline._get_md_var: a pair of
default discrepancy variances chosen by the value space of the data point,
with any unknown value space raising NotImplementedError. -/
def mdVarDefaultEntry (ds : ℚ × String) : Except Unit (ℚ × ℚ) :=
  if ds.2 = "lin" then Except.ok ((ds.1 / 6) ^ 2, (ds.1 / 6) ^ 2)
  else if ds.2 = "log10" then Except.ok (0.0044818726418455815, 0.006269669725654501)
  else if ds.2 = "ln" then Except.ok (0.023762432091205918, 0.03324115007177121)
  else Except.error ()

/-- Embedding of the fallback branch of Pipeline._get_md_var, taken when
ModelLink.get_md_var raises NotImplementedError: the loop over all data
points that appends a default pair per data point and raises at the first
unknown value space. -/
def mdVarDefault : List (ℚ × String) → Except Unit (List (ℚ × ℚ))
  | [] => Except.ok []
  | ds :: rest =>
      match mdVarDefaultEntry ds with
      | Except.error e => Except.error e
      | Except.ok v =>
          match mdVarDefault rest with
          | Except.error e => Except.error e
          | Except.ok vs => Except.ok (v :: vs)

/-- Embedding of Pipeline._get_md_var: when the ModelLink implements
get_md_var its (already normalized, two-column) result is used, otherwise the
default fallback is computed from the value spaces of the data points. -/
def getMdVar (userMdVar : Option (List (ℚ × ℚ))) (data : List (ℚ × String)) :
    Except Unit (List (ℚ × ℚ)) :=
  match userMdVar with
  | some mv => Except.ok mv
  | none => mdVarDefault data

/-- The per-data-point default pair stated by the specification: the squared
sixth of the value in linear space, and fixed precomputed constants in log
base-10 and natural-log space. -/
def mdVarDefaultPair (ds : ℚ × String) : ℚ × ℚ :=
  if ds.2 = "lin" then ((ds.1 / 6) ^ 2, (ds.1 / 6) ^ 2)
  else if ds.2 = "log10" then (0.0044818726418455815, 0.006269669725654501)
  else (0.023762432091205918, 0.03324115007177121)

/-! ### Single-plausible-sample handling (Pipeline.analyze, lines 2436-2466)

The controller finishing-up step of analyze counts the surviving samples,
discards a lone survivor, and emits at most one statistical warning. -/

/-- Warning message raised when no plausible regions remain. -/
def noPlausibleMsg : String :=
  "No plausible regions were found. Constructing the next iteration will not be possible."

/-- Embedding of the controller finishing-up step of Pipeline.analyze: from
the surviving sample list, compute the recorded number of plausible samples,
the persisted plausible-sample set, and the warnings raised.  A single
surviving sample is removed before the warning checks run. -/
def analyzeFinish (n_cross_val n_sam_init : ℕ) (impl_sam : List (List ℚ)) :
    ℕ × List (List ℚ) × List String :=
  let n0 := impl_sam.length
  let n := if n0 = 1 then 0 else n0
  let sam := if n0 = 1 then ([] : List (List ℚ)) else impl_sam
  let warns :=
    if n = 0 then [noPlausibleMsg]
    else if n < n_cross_val then
      ["Number of plausible samples is lower than the number of cross validations used during regression. Constructing the next iteration will not be possible."]
    else if n < n_sam_init then
      ["Number of plausible samples is lower than the number of samples in the first iteration. Constructing the next iteration might not produce a more accurate emulator."]
    else []
  (n, sam, warns)

end Prism

namespace Prism

/-! ### Helper lemmas for the implausibility check -/

theorem descSort_length (l : List ℚ) : (descSort l).length = l.length :=
  List.length_insertionSort _ l

theorem implLoop_length (pairs : List (List ℚ × ℚ)) (check : List Bool)
    (hp : ∀ p ∈ pairs, p.1.length = check.length) :
    (implLoop pairs check).length = check.length := by
  induction pairs generalizing check with
  | nil => rfl
  | cons pc rest ih =>
      obtain ⟨col, cut⟩ := pc
      have hcol : col.length = check.length := hp (col, cut) (List.mem_cons_self _ _)
      have hlen : ((col.zip check).map (fun vb => vb.2 && decide (vb.1 ≤ cut))).length
          = check.length := by
        rw [List.length_map, List.length_zip, hcol, min_self]
      rw [implLoop]
      split
      · exact hlen
      · rw [ih _ ?_, hlen]
        intro p hpm
        rw [hp p (List.mem_cons_of_mem _ hpm), ← hlen]

theorem implLoop_getD (pairs : List (List ℚ × ℚ)) (check : List Bool) (s : ℕ)
    (hp : ∀ p ∈ pairs, p.1.length = check.length) (hs : s < check.length) :
    (implLoop pairs check).getD s false =
      (check.getD s false && pairs.all (fun p => decide (p.1.getD s 0 ≤ p.2))) := by
  induction pairs generalizing check with
  | nil => simp [implLoop]
  | cons pc rest ih =>
      obtain ⟨col, cut⟩ := pc
      have hcol : col.length = check.length := hp (col, cut) (List.mem_cons_self _ _)
      have hlen : ((col.zip check).map (fun vb => vb.2 && decide (vb.1 ≤ cut))).length
          = check.length := by
        rw [List.length_map, List.length_zip, hcol, min_self]
      have hsn : s < ((col.zip check).map (fun vb => vb.2 && decide (vb.1 ≤ cut))).length :=
        hlen ▸ hs
      have hsz : s < (col.zip check).length := by
        rw [List.length_zip, hcol, min_self]; exact hs
      have hsc : s < col.length := hcol ▸ hs
      have hstep : ((col.zip check).map (fun vb => vb.2 && decide (vb.1 ≤ cut))).getD s false =
          (check.getD s false && decide (col.getD s 0 ≤ cut)) := by
        rw [List.getD_eq_getElem _ _ hsn, List.getD_eq_getElem _ _ hs,
            List.getD_eq_getElem _ _ hsc, List.getElem_map, List.getElem_zip]
      rw [implLoop]
      split
      · rename_i hall
        have hfalse : ((col.zip check).map (fun vb => vb.2 && decide (vb.1 ≤ cut))).getD s false
            = false := by
          rw [List.getD_eq_getElem _ _ hsn]
          have := List.all_eq_true.mp hall _ (List.getElem_mem hsn)
          simp only [Bool.not_eq_true'] at this
          exact this
        rw [hfalse, List.all_cons, ← Bool.and_assoc, ← hstep, hfalse, Bool.false_and]
      · rename_i hall
        have hrest : ∀ p ∈ rest,
            p.1.length = ((col.zip check).map (fun vb => vb.2 && decide (vb.1 ≤ cut))).length := by
          intro p hpm
          rw [hp p (List.mem_cons_of_mem _ hpm), ← hlen]
        rw [ih _ hrest hsn, hstep, List.all_cons, Bool.and_assoc]

theorem zip_all_getD_iff {α β : Type} (da : α) (db : β) (f : α × β → Bool) :
    ∀ (as : List α) (bs : List β),
      ((as.zip bs).all f = true ↔
        ∀ k, k < as.length → k < bs.length → f (as.getD k da, bs.getD k db) = true)
  | [], bs => by simp
  | a :: as, [] => by simp
  | a :: as, b :: bs => by
      rw [List.zip_cons_cons, List.all_cons, Bool.and_eq_true,
        zip_all_getD_iff da db f as bs]
      constructor
      · rintro ⟨h0, hrest⟩ k hk1 hk2
        cases k with
        | zero => simpa using h0
        | succ k => exact hrest k (Nat.lt_of_succ_lt_succ hk1) (Nat.lt_of_succ_lt_succ hk2)
      · intro h
        refine ⟨by simpa using h 0 (Nat.succ_pos _) (Nat.succ_pos _), ?_⟩
        intro k hk1 hk2
        exact h (k + 1) (Nat.succ_lt_succ hk1) (Nat.succ_lt_succ hk2)

theorem do_impl_check_fst_length (cut_idx n_data : ℕ) (impl_cut : List ℚ)
    (rows : List (List ℚ)) :
    (do_impl_check cut_idx n_data impl_cut rows).1.length = rows.length := by
  unfold do_impl_check
  dsimp only
  rw [implLoop_length, List.length_map]
  intro p hpm
  have h1 : p.1 ∈ (List.range (n_data - cut_idx)).map (fun k => extractedCol rows cut_idx k) :=
    (List.of_mem_zip hpm).1
  obtain ⟨k, hk, hpk⟩ := List.mem_map.mp h1
  rw [← hpk, extractedCol, List.length_map, List.length_map]

theorem do_impl_check_pass_iff (cut_idx n_data : ℕ) (impl_cut : List ℚ)
    (rows : List (List ℚ)) (s : ℕ) (hs : s < rows.length) :
    ((do_impl_check cut_idx n_data impl_cut rows).1.getD s false = true ↔
      ∀ k, k < n_data - cut_idx → k < impl_cut.length →
        (descSort (rows.getD s [])).getD (cut_idx + k) 0 ≤ impl_cut.getD k 0) := by
  unfold do_impl_check
  dsimp only
  have hsn : s < (rows.map (fun _ => true)).length := by rw [List.length_map]; exact hs
  have hp : ∀ p ∈ ((List.range (n_data - cut_idx)).map
      (fun k => extractedCol rows cut_idx k)).zip impl_cut,
      p.1.length = (rows.map (fun _ => true)).length := by
    intro p hpm
    obtain ⟨k, hk, hpk⟩ := List.mem_map.mp (List.of_mem_zip hpm).1
    rw [← hpk, extractedCol, List.length_map, List.length_map]
  rw [implLoop_getD _ _ s hp hsn]
  have hinit : (rows.map (fun _ => true)).getD s false = true := by
    rw [List.getD_eq_getElem _ _ hsn, List.getElem_map]
  rw [hinit, Bool.true_and]
  rw [zip_all_getD_iff ([] : List ℚ) (0 : ℚ) _ _ _]
  have hlenr : ((List.range (n_data - cut_idx)).map
      (fun k => extractedCol rows cut_idx k)).length = n_data - cut_idx := by
    rw [List.length_map, List.length_range]
  constructor
  · intro h k hk1 hk2
    have hk1r : k < ((List.range (n_data - cut_idx)).map
        (fun k => extractedCol rows cut_idx k)).length := by rw [hlenr]; exact hk1
    have := h k hk1r hk2
    rw [List.getD_eq_getElem _ _ hk1r, List.getElem_map, List.getElem_range] at this
    rw [extractedCol] at this
    have hrv : (rows.map (fun r => (descSort r).getD (cut_idx + k) 0)).getD s 0
        = (descSort (rows.getD s [])).getD (cut_idx + k) 0 := by
      have hsm : s < (rows.map (fun r => (descSort r).getD (cut_idx + k) 0)).length := by
        rw [List.length_map]; exact hs
      rw [List.getD_eq_getElem _ _ hsm, List.getElem_map, List.getD_eq_getElem _ _ hs]
    rw [hrv] at this
    exact of_decide_eq_true this
  · intro h k hk1 hk2
    rw [hlenr] at hk1
    have hk1r : k < ((List.range (n_data - cut_idx)).map
        (fun k => extractedCol rows cut_idx k)).length := by rw [hlenr]; exact hk1
    rw [List.getD_eq_getElem _ _ hk1r, List.getElem_map, List.getElem_range, extractedCol]
    have hsm : s < (rows.map (fun r => (descSort r).getD (cut_idx + k) 0)).length := by
      rw [List.length_map]; exact hs
    rw [List.getD_eq_getElem _ _ hsm, List.getElem_map, ← List.getD_eq_getElem rows [] hs]
    exact decide_eq_true (h k hk1 hk2)

theorem naiveCheck_pass_iff (cut_idx n_data : ℕ) (impl_cut : List ℚ) (row : List ℚ)
    (hlen : row.length = n_data) :
    (naiveCheck cut_idx impl_cut row = true ↔
      ∀ k, k < n_data - cut_idx → k < impl_cut.length →
        (descSort row).getD (cut_idx + k) 0 ≤ impl_cut.getD k 0) := by
  unfold naiveCheck
  rw [zip_all_getD_iff (0 : ℚ) (0 : ℚ) _ _ _]
  have hdl : ((descSort row).drop cut_idx).length = n_data - cut_idx := by
    rw [List.length_drop, descSort_length, hlen]
  constructor
  · intro h k hk1 hk2
    have hk1d : k < ((descSort row).drop cut_idx).length := by rw [hdl]; exact hk1
    have := h k hk1d hk2
    have hcd : cut_idx + k < (descSort row).length := by
      rw [descSort_length, hlen]
      omega
    rw [List.getD_eq_getElem _ _ hk1d, List.getElem_drop, ← List.getD_eq_getElem _ _ hcd] at this
    exact of_decide_eq_true this
  · intro h k hk1 hk2
    rw [hdl] at hk1
    have hk1d : k < ((descSort row).drop cut_idx).length := by rw [hdl]; exact hk1
    have hcd : cut_idx + k < (descSort row).length := by
      rw [descSort_length, hlen]
      omega
    rw [List.getD_eq_getElem _ _ hk1d, List.getElem_drop, ← List.getD_eq_getElem _ _ hcd]
    exact decide_eq_true (h k hk1 hk2)

theorem impl_check_column_scan_eq_naive (cut_idx n_data : ℕ) (impl_cut : List ℚ)
    (rows : List (List ℚ)) (hrect : ∀ r ∈ rows, r.length = n_data) :
    do_impl_check cut_idx n_data impl_cut rows =
      (rows.map (fun r => naiveCheck cut_idx impl_cut r),
       rows.map (fun r => naiveCutVal cut_idx r)) := by
  refine Prod.ext ?_ ?_
  · apply List.ext_getElem
    · rw [do_impl_check_fst_length, List.length_map]
    · intro s h1 h2
      have hs : s < rows.length := by
        rw [do_impl_check_fst_length] at h1; exact h1
      rw [← List.getD_eq_getElem _ false h1, List.getElem_map]
      apply Bool.eq_iff_iff.mpr
      rw [do_impl_check_pass_iff cut_idx n_data impl_cut rows s hs,
        naiveCheck_pass_iff cut_idx n_data impl_cut (rows[s]) (hrect _ (List.getElem_mem hs)),
        List.getD_eq_getElem rows [] hs]
  · rfl

theorem impl_check_per_sample (cut_idx n_data : ℕ) (impl_cut : List ℚ)
    (rows : List (List ℚ)) (hrect : ∀ r ∈ rows, r.length = n_data)
    (hcut : cut_idx < n_data) (s : ℕ) (hs : s < rows.length) :
    ((do_impl_check cut_idx n_data impl_cut rows).1.getD s false = true ↔
      ∀ i, i < n_data - cut_idx → i < impl_cut.length →
        ((descSort (rows.getD s [])).drop cut_idx).getD i 0 ≤ impl_cut.getD i 0) ∧
    (do_impl_check cut_idx n_data impl_cut rows).2.getD s 0 =
      (descSort (rows.getD s [])).getD cut_idx 0 := by
  have hrow : (rows.getD s []).length = n_data := by
    rw [List.getD_eq_getElem _ _ hs]; exact hrect _ (List.getElem_mem hs)
  constructor
  · rw [do_impl_check_pass_iff cut_idx n_data impl_cut rows s hs]
    constructor
    · intro h i h1 h2
      have hil : i < ((descSort (rows.getD s [])).drop cut_idx).length := by
        rw [List.length_drop, descSort_length, hrow]; exact h1
      have hcd : cut_idx + i < (descSort (rows.getD s [])).length := by
        rw [descSort_length, hrow]; omega
      rw [List.getD_eq_getElem _ _ hil, List.getElem_drop, ← List.getD_eq_getElem _ _ hcd]
      exact h i h1 h2
    · intro h i h1 h2
      have hil : i < ((descSort (rows.getD s [])).drop cut_idx).length := by
        rw [List.length_drop, descSort_length, hrow]; exact h1
      have hcd : cut_idx + i < (descSort (rows.getD s [])).length := by
        rw [descSort_length, hrow]; omega
      have := h i h1 h2
      rw [List.getD_eq_getElem _ _ hil, List.getElem_drop,
        ← List.getD_eq_getElem _ _ hcd] at this
      exact this
  · show (rows.map (fun r => (descSort r).getD cut_idx 0)).getD s 0 = _
    have hsm : s < (rows.map (fun r => (descSort r).getD cut_idx 0)).length := by
      rw [List.length_map]; exact hs
    rw [List.getD_eq_getElem _ _ hsm, List.getElem_map, List.getD_eq_getElem rows [] hs]

theorem impl_check_monotonic (cut_idx n_data : ℕ) (c c2 : List ℚ)
    (rows : List (List ℚ)) (hlen : c2.length = c.length)
    (hle : ∀ i, i < c.length → c2.getD i 0 ≤ c.getD i 0)
    (s : ℕ) (hs : s < rows.length)
    (hfail : (do_impl_check cut_idx n_data c rows).1.getD s false = false) :
    (do_impl_check cut_idx n_data c2 rows).1.getD s false = false := by
  by_contra h
  have hpass : (do_impl_check cut_idx n_data c2 rows).1.getD s false = true :=
    Bool.ne_false_iff.mp h
  have h2 := (do_impl_check_pass_iff cut_idx n_data c2 rows s hs).mp hpass
  have hcp : (do_impl_check cut_idx n_data c rows).1.getD s false = true := by
    rw [do_impl_check_pass_iff cut_idx n_data c rows s hs]
    intro k hk1 hk2
    exact le_trans (h2 k hk1 (by rw [hlen]; exact hk2)) (hle k hk2)
  rw [hcp] at hfail
  exact Bool.noConfusion hfail

theorem impl_check_column_scan_eq_naive_witness :
    do_impl_check 0 2 [(3 : ℚ), 2] [[3, 1], [1, 2]] =
      (([[(3 : ℚ), 1], [1, 2]]).map (fun r => naiveCheck 0 [(3 : ℚ), 2] r),
       ([[(3 : ℚ), 1], [1, 2]]).map (fun r => naiveCutVal 0 r)) :=
  impl_check_column_scan_eq_naive 0 2 [3, 2] [[3, 1], [1, 2]] (by decide)

theorem impl_check_per_sample_witness :
    ((do_impl_check 1 2 [(2 : ℚ)] [[3, 1]]).1.getD 0 false = true ↔
      ∀ i, i < 2 - 1 → i < [(2 : ℚ)].length →
        ((descSort (([[(3 : ℚ), 1]]).getD 0 [])).drop 1).getD i 0 ≤ ([(2 : ℚ)]).getD i 0) ∧
    (do_impl_check 1 2 [(2 : ℚ)] [[3, 1]]).2.getD 0 0 =
      (descSort (([[(3 : ℚ), 1]]).getD 0 [])).getD 1 0 :=
  impl_check_per_sample 1 2 [2] [[3, 1]] (by decide) (by decide) 0 (by decide)

theorem impl_check_monotonic_witness :
    (do_impl_check 0 1 [(4 : ℚ)] [[5]]).1.getD 0 false = false ∧
      (do_impl_check 0 1 [(3 : ℚ)] [[5]]).1.getD 0 false = false :=
  ⟨by decide, impl_check_monotonic 0 1 [4] [3] [[5]] (by decide)
    (by
      intro i hi
      have h0 : i = 0 := by simpa [Nat.lt_one_iff] using hi
      subst h0
      decide) 0 (by decide) (by decide)⟩

/-! ### Claim theorems for the guards and fallbacks -/

/-- C7: analyze raises a RequestError, for every iteration, exactly when the
checkpoint of the next iteration exists and no longer contains the
model-realization substep; before that point reanalysis is allowed. -/
theorem analyze_guard_iff (ccheck : List (List String)) (i : ℕ) :
    (∃ e, analyzeCheck ccheck i = Except.error e) ↔
      (i + 1 < ccheck.length ∧ "mod_real_set" ∉ ccheck.getD (i + 1) []) := by
  unfold analyzeCheck
  by_cases h : i + 1 < ccheck.length
  · by_cases hm : "mod_real_set" ∈ ccheck.getD (i + 1) []
    · rw [if_pos h, if_pos hm]
      rw [List.getD_eq_getElem _ _ h] at hm
      simp [h, hm]
    · rw [if_pos h, if_neg hm]
      rw [List.getD_eq_getElem _ _ h] at hm
      simp [h, hm]
  · rw [if_neg h]
    simp [h]

/-- C6: when construct builds iteration i > 1 from the start, it raises a
RequestError exactly when the previous iteration has an empty plausible
sample set or fewer plausible samples than the cross-validation minimum. -/
theorem construct_precondition_iff (i n_prev ncv : ℕ) (hi : 1 < i) :
    (∃ e, constructStartCheck i n_prev ncv = Except.error e) ↔
      (n_prev = 0 ∨ n_prev < ncv) := by
  have hne : i ≠ 1 := Nat.ne_of_gt hi
  unfold constructStartCheck
  by_cases h0 : n_prev = 0
  · simp [hne, h0]
  · by_cases hlt : n_prev < ncv
    · simp [hne, h0, hlt]
    · simp [hne, h0, hlt]

/-- Witness for C6 at a concrete input: with 4 plausible samples and a
cross-validation minimum of 5, construction of iteration 2 errors. -/
theorem construct_precondition_iff_witness :
    (1 < 2 ∧ ((4 : ℕ) = 0 ∨ (4 : ℕ) < 5)) ∧
      (∃ e, constructStartCheck 2 4 5 = Except.error e) :=
  ⟨⟨by decide, Or.inr (by decide)⟩,
    (construct_precondition_iff 2 4 5 (by decide)).mpr (Or.inr (by decide))⟩

/-- C3 divergence witness: when a dispatched call raises on the controller
inside worker mode, WorkerMode.__exit__ re-raises before any collective
operation, so the exception propagates but the exit key is never broadcast
and listening workers are left blocked. -/
theorem workerModeExit_drops_key_on_exception :
    (workerModeExit false (some "RequestError")).2 = some "RequestError" ∧
      WMEvent.bcastKey ∉ (workerModeExit false (some "RequestError")).1 := by
  constructor
  · rfl
  · simp [workerModeExit]

/-- C9: when the ModelLink does not implement get_md_var, the result is, per
data point, the default pair selected only by the value space of that data
point, and any value space other than lin, log10 or ln is an error. -/
theorem getMdVar_default (data : List (ℚ × String)) :
    ((∀ ds ∈ data, ds.2 = "lin" ∨ ds.2 = "log10" ∨ ds.2 = "ln") →
      getMdVar none data = Except.ok (data.map mdVarDefaultPair)) ∧
    ((∃ ds ∈ data, ds.2 ≠ "lin" ∧ ds.2 ≠ "log10" ∧ ds.2 ≠ "ln") →
      getMdVar none data = Except.error ()) := by
  constructor
  · intro h
    show mdVarDefault data = Except.ok (data.map mdVarDefaultPair)
    induction data with
    | nil => rfl
    | cons d rest ih =>
        have hd := h d (List.mem_cons_self d rest)
        have hrest := ih (fun ds hds => h ds (List.mem_cons_of_mem d hds))
        rcases hd with h1 | h1 | h1 <;>
          simp [mdVarDefault, mdVarDefaultEntry, h1, hrest, mdVarDefaultPair]
  · intro h
    show mdVarDefault data = Except.error ()
    induction data with
    | nil => simp at h
    | cons d rest ih =>
        rcases h with ⟨ds, hmem, hds⟩
        rcases List.mem_cons.mp hmem with heq | hmem2
        · subst heq
          simp [mdVarDefault, mdVarDefaultEntry, hds.1, hds.2.1, hds.2.2]
        · have hrest := ih ⟨ds, hmem2, hds⟩
          by_cases h1 : d.2 = "lin"
          · simp [mdVarDefault, mdVarDefaultEntry, h1, hrest]
          · by_cases h2 : d.2 = "log10"
            · simp [mdVarDefault, mdVarDefaultEntry, h1, h2, hrest]
            · by_cases h3 : d.2 = "ln"
              · simp [mdVarDefault, mdVarDefaultEntry, h1, h2, h3, hrest]
              · simp [mdVarDefault, mdVarDefaultEntry, h1, h2, h3]

/-- Witness for C9 at concrete inputs: a lin and a log10 data point receive
their default pairs, and an unknown value space errors. -/
theorem getMdVar_default_witness :
    getMdVar none [((6 : ℚ), "lin"), ((1 : ℚ), "log10")] =
        Except.ok [((1 : ℚ), (1 : ℚ)), (0.0044818726418455815, 0.006269669725654501)] ∧
      getMdVar none [((2 : ℚ), "sqrt")] = Except.error () := by
  constructor
  · have h := (getMdVar_default [((6 : ℚ), "lin"), ((1 : ℚ), "log10")]).1 (by decide)
    rw [h]
    refine congrArg Except.ok ?_
    norm_num [mdVarDefaultPair]
    decide
  · exact (getMdVar_default [((2 : ℚ), "sqrt")]).2 ⟨((2 : ℚ), "sqrt"), by decide, by decide⟩

/-- C10: if exactly one sample survives the implausibility checks, the
finishing-up step of analyze records zero plausible samples, persists an
empty plausible set, raises the no-plausible-regions warning, and produces
exactly the output it produces on an empty survivor list. -/
theorem analyzeFinish_single_sample (ncv ns1 : ℕ) (impl_sam : List (List ℚ))
    (h : impl_sam.length = 1) :
    analyzeFinish ncv ns1 impl_sam = (0, [], [noPlausibleMsg]) ∧
      analyzeFinish ncv ns1 impl_sam = analyzeFinish ncv ns1 [] := by
  have h1 : analyzeFinish ncv ns1 impl_sam = (0, [], [noPlausibleMsg]) := by
    unfold analyzeFinish
    simp [h]
  have h2 : analyzeFinish ncv ns1 ([] : List (List ℚ)) = (0, [], [noPlausibleMsg]) := by
    unfold analyzeFinish
    simp
  exact ⟨h1, h1.trans h2.symm⟩

/-- Witness for C10 at a concrete input: a single surviving sample is
discarded and the no-plausible-regions warning is raised. -/
theorem analyzeFinish_single_sample_witness :
    ([[ (1 : ℚ), 2 ]] : List (List ℚ)).length = 1 ∧
      analyzeFinish 5 10 [[(1 : ℚ), 2]] = (0, [], [noPlausibleMsg]) :=
  ⟨by decide, (analyzeFinish_single_sample 5 10 [[(1 : ℚ), 2]] (by decide)).1⟩

/-! ### Helper lemmas for the cut-off setter -/

theorem completionFrom_length (prev : ℚ) (xs : List ℚ) :
    (completionFrom prev xs).length = xs.length := by
  induction xs generalizing prev with
  | nil => rfl
  | cons x xs ih =>
      rw [completionFrom]
      split
      · rw [List.length_cons, ih, List.length_cons]
      · rw [List.length_cons, ih, List.length_cons]

theorem completion_length (l : List ℚ) : (completion l).length = l.length := by
  cases l with
  | nil => rfl
  | cons x xs => rw [completion, List.length_cons, completionFrom_length, List.length_cons]

theorem completeAux_ok (prev : ℚ) (xs ys : List ℚ)
    (h : completeAux prev xs = Except.ok ys) : ys = completionFrom prev xs := by
  induction xs generalizing prev ys with
  | nil =>
      rw [completeAux] at h
      cases h
      rfl
  | cons x xs ih =>
      rw [completeAux] at h
      rw [completionFrom]
      split at h
      · rename_i hx
        rw [if_pos hx]
        cases he : completeAux prev xs with
        | error e => rw [he] at h; cases h
        | ok zs =>
            rw [he] at h
            cases h
            rw [ih prev zs he]
      · split at h
        · cases h
        · rename_i hx hcond
          rw [if_neg hx]
          cases he : completeAux x xs with
          | error e => rw [he] at h; cases h
          | ok zs =>
              rw [he] at h
              cases h
              rw [ih x zs he]

theorem completeAux_error_iff (prev : ℚ) (xs : List ℚ) :
    (∃ e, completeAux prev xs = Except.error e) ↔
      hasIncrease (prev :: completionFrom prev xs) = true := by
  induction xs generalizing prev with
  | nil =>
      rw [completeAux, completionFrom]
      simp [hasIncrease]
  | cons x xs ih =>
      rw [completeAux, completionFrom]
      by_cases hx : x = 0
      · rw [if_pos hx, if_pos hx]
        rw [hasIncrease]
        have hsm : (decide (prev ≠ 0) && decide (prev < prev)) = false := by simp
        rw [hsm, Bool.false_or]
        rw [← ih prev]
        constructor
        · rintro ⟨e, he⟩
          cases hc : completeAux prev xs with
          | error e2 => exact ⟨e2, rfl⟩
          | ok zs => rw [hc] at he; cases he
        · rintro ⟨e, he⟩
          exact ⟨e, by rw [he]; rfl⟩
      · rw [if_neg hx, if_neg hx]
        by_cases hcond : prev < x ∧ prev ≠ 0
        · rw [if_pos hcond]
          rw [hasIncrease]
          have hh : (decide (prev ≠ 0) && decide (prev < x)) = true := by
            rw [decide_eq_true hcond.2, decide_eq_true hcond.1]; rfl
          rw [hh, Bool.true_or]
          simp
        · rw [if_neg hcond]
          rw [hasIncrease]
          have hh : (decide (prev ≠ 0) && decide (prev < x)) = false := by
            by_cases h2 : prev ≠ 0
            · have h3 : ¬prev < x := fun hlt => hcond ⟨hlt, h2⟩
              rw [decide_eq_false h3, Bool.and_false]
            · rw [decide_eq_false h2, Bool.false_and]
          rw [hh, Bool.false_or]
          rw [← ih x]
          constructor
          · rintro ⟨e, he⟩
            cases hc : completeAux x xs with
            | error e2 => exact ⟨e2, rfl⟩
            | ok zs => rw [hc] at he; cases he
          · rintro ⟨e, he⟩
            exact ⟨e, by rw [he]; rfl⟩

theorem completeImplCut_ok (l comp : List ℚ)
    (h : completeImplCut l = Except.ok comp) : comp = completion l := by
  cases l with
  | nil => rw [completeImplCut] at h; cases h; rfl
  | cons x xs =>
      rw [completeImplCut] at h
      rw [completion]
      cases he : completeAux x xs with
      | error e => rw [he] at h; cases h
      | ok zs =>
          rw [he] at h
          cases h
          rw [completeAux_ok x xs zs he]

theorem completeImplCut_error_iff (l : List ℚ) :
    (∃ e, completeImplCut l = Except.error e) ↔ hasIncrease (completion l) = true := by
  cases l with
  | nil =>
      rw [completeImplCut, completion]
      simp [hasIncrease]
  | cons x xs =>
      rw [completeImplCut, completion]
      rw [← completeAux_error_iff x xs]
      constructor
      · rintro ⟨e, he⟩
        cases hc : completeAux x xs with
        | error e2 => exact ⟨e2, rfl⟩
        | ok zs => rw [hc] at he; cases he
      · rintro ⟨e, he⟩
        exact ⟨e, by rw [he]; rfl⟩

theorem completionFrom_getD (xs : List ℚ) (prev : ℚ) (k : ℕ) (hk : k < xs.length) :
    (completionFrom prev xs).getD k 0 =
      if xs.getD k 0 ≠ 0 then xs.getD k 0 else lastNZ prev (xs.take k) := by
  induction xs generalizing prev k with
  | nil => cases hk
  | cons x xs ih =>
      cases k with
      | zero =>
          rw [completionFrom]
          by_cases hx : x = 0
          · rw [if_pos hx]
            simp [lastNZ, hx]
          · rw [if_neg hx]
            simp [hx]
      | succ k =>
          have hk2 : k < xs.length := Nat.lt_of_succ_lt_succ hk
          rw [completionFrom, List.take_succ_cons]
          by_cases hx : x = 0
          · rw [if_pos hx]
            have hstep : lastNZ prev (x :: xs.take k) = lastNZ prev (xs.take k) := by
              rw [lastNZ, if_pos hx]
            rw [List.getD_cons_succ, List.getD_cons_succ, ih prev k hk2, hstep]
          · rw [if_neg hx]
            have hstep : lastNZ prev (x :: xs.take k) = lastNZ x (xs.take k) := by
              rw [lastNZ, if_neg hx]
            rw [List.getD_cons_succ, List.getD_cons_succ, ih x k hk2, hstep]

theorem filter_getLast_eq_lastNZ (ys : List ℚ) (prev : ℚ) :
    (((prev :: ys).filter (fun x => decide (x ≠ 0))).getLast?.getD 0) = lastNZ prev ys := by
  induction ys generalizing prev with
  | nil =>
      rw [lastNZ]
      by_cases hp : prev = 0
      · simp [hp]
      · simp [hp]
  | cons y ys ih =>
      by_cases hy : y = 0
      · rw [lastNZ, if_pos hy, ← ih prev]
        have hfy : (fun x => decide (x ≠ 0)) y = false := by simp [hy]
        have : (prev :: y :: ys).filter (fun x => decide (x ≠ 0)) =
            (prev :: ys).filter (fun x => decide (x ≠ 0)) := by
          by_cases hp : prev = 0
          · rw [List.filter_cons, List.filter_cons]
            simp only [hfy]
            simp [hp]
          · rw [List.filter_cons, List.filter_cons]
            simp only [hfy]
            simp [hp]
        rw [this]
      · rw [lastNZ, if_neg hy, ← ih y]
        have hfy : (fun x => decide (x ≠ 0)) y = true := by simp [hy]
        by_cases hp : prev = 0
        · have : (prev :: y :: ys).filter (fun x => decide (x ≠ 0)) =
              (y :: ys).filter (fun x => decide (x ≠ 0)) := by
            rw [List.filter_cons]
            simp [hp]
          rw [this]
        · have hstruct : (prev :: y :: ys).filter (fun x => decide (x ≠ 0)) =
              prev :: (y :: ys).filter (fun x => decide (x ≠ 0)) := by
            rw [List.filter_cons]
            simp [hp]
          rw [hstruct]
          have hne : (y :: ys).filter (fun x => decide (x ≠ 0)) ≠ [] := by
            intro hnil
            have : y ∈ (y :: ys).filter (fun x => decide (x ≠ 0)) :=
              List.mem_filter.mpr ⟨List.mem_cons_self _ _, hfy⟩
            rw [hnil] at this
            cases this
          cases hfl : (y :: ys).filter (fun x => decide (x ≠ 0)) with
          | nil => exact absurd hfl hne
          | cons z zs => rw [List.getLast?_cons_cons]

theorem specCompletion_getD (l : List ℚ) (k : ℕ) (hk : k < l.length) :
    (specCompletion l).getD k 0 =
      if l.getD k 0 ≠ 0 then l.getD k 0 else nearestPrecedingNonzero l k := by
  have h2m : k < ((List.range l.length).map (fun k =>
      if l.getD k 0 ≠ 0 then l.getD k 0 else nearestPrecedingNonzero l k)).length := by
    rw [List.length_map, List.length_range]; exact hk
  rw [specCompletion, List.getD_eq_getElem _ 0 h2m, List.getElem_map, List.getElem_range]

theorem completion_eq_specCompletion (l : List ℚ) : completion l = specCompletion l := by
  have hlen : (specCompletion l).length = l.length := by
    rw [specCompletion, List.length_map, List.length_range]
  apply List.ext_getElem
  · rw [completion_length, hlen]
  · intro k h1 h2
    have hkl : k < l.length := by rw [completion_length] at h1; exact h1
    rw [← List.getD_eq_getElem (completion l) 0 h1,
      ← List.getD_eq_getElem (specCompletion l) 0 h2]
    rw [specCompletion_getD l k hkl]
    cases l with
    | nil => cases hkl
    | cons x xs =>
        cases k with
        | zero =>
            rw [completion]
            by_cases hx : x = 0
            · rw [List.getD_cons_zero, List.getD_cons_zero, if_neg (by simpa using hx)]
              rw [nearestPrecedingNonzero]
              simp [hx]
            · rw [List.getD_cons_zero, List.getD_cons_zero, if_pos (by simpa using hx)]
        | succ k =>
            have hk2 : k < xs.length := Nat.lt_of_succ_lt_succ hkl
            rw [completion, List.getD_cons_succ, List.getD_cons_succ]
            rw [completionFrom_getD xs x k hk2]
            rw [nearestPrecedingNonzero, List.take_succ_cons]
            rw [filter_getLast_eq_lastNZ]

theorem completion_all_zero_iff (l : List ℚ) :
    (∀ x ∈ completion l, x = 0) ↔ (∀ x ∈ l, x = 0) := by
  constructor
  · intro h x hx
    obtain ⟨k, hk, hxk⟩ := List.getElem_of_mem hx
    by_contra hne
    have hk2 : k < (completion l).length := by rw [completion_length]; exact hk
    have hmem : (completion l).getD k 0 ∈ completion l := by
      rw [List.getD_eq_getElem _ 0 hk2]
      exact List.getElem_mem hk2
    have hval : (completion l).getD k 0 = x := by
      rw [completion_eq_specCompletion, specCompletion_getD l k hk]
      rw [List.getD_eq_getElem l 0 hk, hxk]
      exact if_pos hne
    have := h _ hmem
    rw [hval] at this
    exact hne this
  · intro h x hx
    obtain ⟨k, hk, hxk⟩ := List.getElem_of_mem hx
    have hkl : k < l.length := by rw [← completion_length]; exact hk
    have hval : (completion l).getD k 0 = x := by
      rw [List.getD_eq_getElem _ 0 hk, hxk]
    rw [completion_eq_specCompletion, specCompletion_getD l k hkl] at hval
    have hl0 : l.getD k 0 = 0 := by
      rw [List.getD_eq_getElem l 0 hkl]
      exact h _ (List.getElem_mem hkl)
    rw [hl0] at hval
    simp only [ne_eq, not_true_eq_false, if_false] at hval
    rw [← hval, nearestPrecedingNonzero]
    have hfil : (l.take k).filter (fun x => decide (x ≠ 0)) = [] := by
      rw [List.filter_eq_nil_iff]
      intro a ha
      have := h a (List.mem_of_mem_take ha)
      simp [this]
    rw [hfil]
    rfl

/-- C4 counterexample: the non-negative cut-off list [3, 4] contains
non-zero entries, yet setting it raises ValueError, because the second
cut-off is higher than the first; so the setter does not raise an error only
when the vector contains no non-zero entry at all. -/
theorem impl_cut_setter_counterexample :
    (∀ x ∈ [(3 : ℚ), 4], 0 ≤ x) ∧ (∃ x ∈ [(3 : ℚ), 4], x ≠ 0) ∧
      (∃ e, implCutSetter 2 [(3 : ℚ), 4] = Except.error e) :=
  ⟨by decide, ⟨3, by decide, by decide⟩,
    ⟨"Cut-off is higher than the previous cut-off!", by rfl⟩⟩

/-- C4 amended: for a sequence of non-negative floats no longer than the
total data-point count, the setter completes the vector by giving every zero
entry the value of the nearest preceding non-zero entry (completion equals
specCompletion, which the conclusions are phrased in), raises an error if and
only if the vector contains no non-zero entry at all or some completed entry
exceeds its non-zero predecessor, and otherwise stores the completed vector
from cut_idx on, where cut_idx is the index of the first non-zero completed
entry. -/
theorem impl_cut_setter_amended (n : ℕ) (l : List ℚ)
    (hnn : ∀ x ∈ l, 0 ≤ x) (hn : l.length ≤ n) :
    ((∃ e, implCutSetter n l = Except.error e) ↔
      (hasIncrease (specCompletion l) = true ∨ ∀ x ∈ l, x = 0)) ∧
    (∀ v ci, implCutSetter n l = Except.ok (v, ci) →
      v = (specCompletion l).drop ci ∧ ci < l.length ∧
        (specCompletion l).getD ci 0 ≠ 0 ∧
        ∀ j, j < ci → (specCompletion l).getD j 0 = 0) := by
  rw [← completion_eq_specCompletion]
  cases hc : completeImplCut l with
  | error e =>
      have herr : implCutSetter n l = Except.error e := by
        simp only [implCutSetter, hc]
      have hinc : hasIncrease (completion l) = true :=
        (completeImplCut_error_iff l).mp ⟨e, hc⟩
      constructor
      · constructor
        · intro _
          exact Or.inl hinc
        · intro _
          exact ⟨e, herr⟩
      · intro v ci hok
        rw [herr] at hok
        cases hok
  | ok comp =>
      have hcomp : comp = completion l := completeImplCut_ok l comp hc
      have hnoerr : ¬∃ e, completeImplCut l = Except.error e := by
        rintro ⟨e, he⟩
        rw [hc] at he
        cases he
      have hinc : hasIncrease (completion l) = false := by
        cases hb : hasIncrease (completion l) with
        | false => rfl
        | true => exact absurd ((completeImplCut_error_iff l).mpr hb) hnoerr
      have htake : comp.take n = comp :=
        List.take_of_length_le (by rw [hcomp, completion_length]; exact hn)
      cases hf : (comp.take n).findIdx? (fun x => decide (x ≠ 0)) with
      | none =>
          have hres : implCutSetter n l =
              Except.error "No non-wildcard implausibility cut-off was provided!" := by
            simp only [implCutSetter, hc, hf]
          have hzero : ∀ x ∈ l, x = 0 := by
            rw [← completion_all_zero_iff, ← hcomp, ← htake]
            intro x hx
            have := List.findIdx?_eq_none_iff.mp hf x hx
            simpa using this
          constructor
          · constructor
            · intro _
              exact Or.inr hzero
            · intro _
              exact ⟨_, hres⟩
          · intro v ci hok
            rw [hres] at hok
            cases hok
      | some ci =>
          have hres : implCutSetter n l = Except.ok (comp.drop ci, ci) := by
            simp only [implCutSetter, hc, hf]
          rw [htake] at hf
          obtain ⟨hci, hpci, hprev⟩ := List.findIdx?_eq_some_iff_getElem.mp hf
          have hcil : ci < l.length := by
            rw [← completion_length, ← hcomp]
            exact hci
          have hget : (completion l).getD ci 0 ≠ 0 := by
            rw [← hcomp, List.getD_eq_getElem comp 0 hci]
            simpa using hpci
          have hjzero : ∀ j, j < ci → (completion l).getD j 0 = 0 := by
            intro j hj
            have hjc : j < comp.length := Nat.lt_trans hj hci
            have := hprev j hj
            rw [← hcomp, List.getD_eq_getElem comp 0 hjc]
            simpa using this
          have hnz : ¬∀ x ∈ l, x = 0 := by
            intro hall
            exact hget (((completion_all_zero_iff l).mpr hall) _
              (by rw [List.getD_eq_getElem _ 0 (hcomp ▸ hci)]
                  exact List.getElem_mem _))
          constructor
          · constructor
            · rintro ⟨e, he⟩
              rw [hres] at he
              cases he
            · rintro (h1 | h2)
              · rw [hinc] at h1
                cases h1
              · exact absurd h2 hnz
          · intro v ci2 hok
            rw [hres] at hok
            cases hok
            exact ⟨by rw [hcomp], hcil, hget, hjzero⟩

/-- Witness for the amended C4 at a concrete input: the spec example
[0, 4, 0, 3] completes to [0, 4, 4, 3], gets cut_idx 1 and stores
[4, 4, 3]. -/
theorem impl_cut_setter_amended_witness :
    ((∀ x ∈ [(0 : ℚ), 4, 0, 3], 0 ≤ x) ∧ ([(0 : ℚ), 4, 0, 3] : List ℚ).length ≤ 4) ∧
      ([(4 : ℚ), 4, 3] = (specCompletion [(0 : ℚ), 4, 0, 3]).drop 1 ∧ 1 < 4 ∧
        (specCompletion [(0 : ℚ), 4, 0, 3]).getD 1 0 ≠ 0 ∧
        ∀ j, j < 1 → (specCompletion [(0 : ℚ), 4, 0, 3]).getD j 0 = 0) :=
  ⟨⟨by decide, by decide⟩,
    (impl_cut_setter_amended 4 [0, 4, 0, 3] (by decide) (by decide)).2 [4, 4, 3] 1 (by rfl)⟩

/-- C8: for every sample set and iteration, the generic evaluate-then-analyze
traversal raises NotImplementedError whenever the emulator type in use is not
the default kind, returning no results; the outcome does not depend on the
emulator evaluation function, so no sample is evaluated. -/
theorem evaluate_sam_set_non_default (emul_type : String) (emul_i : ℕ)
    (evalUI altUI : ℕ → List ℚ → List ℚ) (impl_cut : ℕ → List ℚ)
    (cut_idx n_data : ℕ → ℕ) (sam_set : List (List ℚ))
    (h : emul_type ≠ "default") :
    evaluateSamSet emul_type emul_i evalUI impl_cut cut_idx n_data sam_set =
        Except.error () ∧
      evaluateSamSet emul_type emul_i evalUI impl_cut cut_idx n_data sam_set =
        evaluateSamSet emul_type emul_i altUI impl_cut cut_idx n_data sam_set := by
  rw [evaluateSamSet, evaluateSamSet, if_neg h, if_neg h]
  exact ⟨rfl, rfl⟩

/-- Witness for C8 at a concrete input: a gaussian emulator type makes the
traversal error out. -/
theorem evaluate_sam_set_non_default_witness :
    ("gaussian" ≠ "default") ∧
      evaluateSamSet "gaussian" 1 (fun _ r => r) (fun _ => [3]) (fun _ => 0) (fun _ => 1)
        [[(2 : ℚ)]] = Except.error () :=
  ⟨by decide, (evaluate_sam_set_non_default "gaussian" 1 (fun _ r => r) (fun _ r => r)
    (fun _ => [3]) (fun _ => 0) (fun _ => 1) [[(2 : ℚ)]] (by decide)).1⟩


end Prism
